import Mathlib

/-!
Verification of the hypr-claw repository scripts.

The repository holds three Python scripts:
* `happy/fibonacci.py` — an iterative Fibonacci sequence generator with a
  console `main`;
* `add_json_imports.py` — a codemod that inserts `use serde_json::json;`
  after the last `use ...;` line of each file in a fixed path list;
* `update_tool_registry_mocks.py` — a codemod that injects a
  `get_tool_schemas` method after each `get_active_tools` method matched by
  a regular expression.

The definitions below are a shallow embedding of those scripts: file
contents are `List Char`, the file system is a partial map from paths to
contents, and the two regular expressions are implemented as the
deterministic matchers they denote (both patterns backtrack trivially, so
each has a unique match at a given start position).
-/

namespace HyprClaw

/-! ## `happy/fibonacci.py` -/

/-- One iteration of the loop `for i in range(2, n)` in `fibonacci`:
append `fib_series[i-1] + fib_series[i-2]` to the accumulated list. -/
def fibStep (fib : List Int) (i : Nat) : List Int :=
  fib ++ [fib.getD (i - 1) 0 + fib.getD (i - 2) 0]

/-- `fibonacci(n)` from `happy/fibonacci.py`: guards for `n <= 0`, `n == 1`,
`n == 2`, then the loop `for i in range(2, n)` starting from `[0, 1]`.
`range(2, n)` is the list `[2, 3, ..., n-1]`, which has `n - 2` elements. -/
def fibonacci (n : Int) : List Int :=
  if n ≤ 0 then []
  else if n = 1 then [0]
  else if n = 2 then [0, 1]
  else (List.range' 2 (n.toNat - 2)).foldl fibStep [0, 1]

/-! ## Proofs about `fibonacci` -/

/-- The loop invariant: after folding `fibStep` over `range' 2 k`, the list
has length `k + 2` and satisfies the Fibonacci recurrence at every index
`2 ≤ i < k + 2`. -/
theorem fib_loop_invariant (k : Nat) :
    ((List.range' 2 k).foldl fibStep [0, 1]).length = k + 2 ∧
      ∀ i : Nat, 2 ≤ i → i < k + 2 →
        ((List.range' 2 k).foldl fibStep [0, 1]).getD i 0 =
          ((List.range' 2 k).foldl fibStep [0, 1]).getD (i - 1) 0 +
            ((List.range' 2 k).foldl fibStep [0, 1]).getD (i - 2) 0 := by
  induction k with
  | zero =>
    refine ⟨rfl, ?_⟩
    intro i h2 hlt
    omega
  | succ k ih =>
    obtain ⟨hlen, hrec⟩ := ih
    set l : List Int := (List.range' 2 k).foldl fibStep [0, 1] with hl
    have hstep : (List.range' 2 (k + 1)).foldl fibStep [0, 1] =
        fibStep l (2 + k) := by
      rw [List.range'_1_concat, List.foldl_append]
      rfl
    rw [hstep]
    unfold fibStep
    constructor
    · simp [hlen]
    · intro i h2 hlt
      have hgetlt : ∀ j : Nat, j < l.length →
          (l ++ [l.getD (2 + k - 1) 0 + l.getD (2 + k - 2) 0]).getD j 0 =
            l.getD j 0 := by
        intro j hj
        simp only [List.getD_eq_getElem?_getD]
        rw [List.getElem?_append_left hj]
      rcases Nat.lt_or_ge i (k + 2) with hi | hi
      · rw [hgetlt i (by omega), hgetlt (i - 1) (by omega),
          hgetlt (i - 2) (by omega)]
        exact hrec i h2 hi
      · have hik : i = k + 2 := by omega
        subst hik
        have hlast : (l ++ [l.getD (2 + k - 1) 0 + l.getD (2 + k - 2) 0]).getD
            (k + 2) 0 = l.getD (2 + k - 1) 0 + l.getD (2 + k - 2) 0 := by
          simp only [List.getD_eq_getElem?_getD]
          have : k + 2 = l.length := by omega
          rw [this, List.getElem?_concat_length]
          rfl
        rw [hlast, hgetlt (k + 2 - 1) (by omega), hgetlt (k + 2 - 2) (by omega)]
        congr 2 <;> omega

/-- C1: for every integer `n ≥ 0`, `fibonacci n` has length `n` and
satisfies `term[i] = term[i-1] + term[i-2]` for every `2 ≤ i < n`. -/
theorem fibonacci_length_and_recurrence (n : Int) (hn : 0 ≤ n) :
    (fibonacci n).length = n.toNat ∧
      ∀ i : Nat, 2 ≤ i → (i : Int) < n →
        (fibonacci n).getD i 0 =
          (fibonacci n).getD (i - 1) 0 + (fibonacci n).getD (i - 2) 0 := by
  by_cases h0 : n ≤ 0
  · have : n = 0 := le_antisymm h0 hn
    subst this
    exact ⟨rfl, fun i h2 hlt => by omega⟩
  · by_cases h1 : n = 1
    · subst h1
      refine ⟨rfl, fun i h2 hlt => ?_⟩
      have : (i : Int) ≥ 2 := by exact_mod_cast h2
      omega
    · by_cases h2 : n = 2
      · subst h2
        refine ⟨rfl, fun i hi2 hlt => ?_⟩
        have : (i : Int) ≥ 2 := by exact_mod_cast hi2
        omega
      · have hfib : fibonacci n = (List.range' 2 (n.toNat - 2)).foldl fibStep
            [0, 1] := by
          unfold fibonacci
          rw [if_neg h0, if_neg h1, if_neg h2]
        have h3 : 3 ≤ n := by omega
        have htn : n.toNat - 2 + 2 = n.toNat := by omega
        obtain ⟨hlen, hrec⟩ := fib_loop_invariant (n.toNat - 2)
        refine ⟨by rw [hfib, hlen, htn], fun i hi2 hlt => ?_⟩
        have hitn : i < n.toNat := by omega
        rw [hfib]
        exact hrec i hi2 (by omega)

/-- Witness for C1 at `n = 5`. -/
theorem fibonacci_length_and_recurrence_witness :
    (0 : Int) ≤ 5 ∧
      ((fibonacci 5).length = (5 : Int).toNat ∧
        ∀ i : Nat, 2 ≤ i → (i : Int) < 5 →
          (fibonacci 5).getD i 0 =
            (fibonacci 5).getD (i - 1) 0 + (fibonacci 5).getD (i - 2) 0) :=
  ⟨by decide, fibonacci_length_and_recurrence 5 (by decide)⟩

/-- C2: the concrete values of `fibonacci` at 0, 1, 2 and 5. -/
theorem fibonacci_concrete_values :
    fibonacci 0 = [] ∧ fibonacci 1 = [0] ∧ fibonacci 2 = [0, 1] ∧
      fibonacci 5 = [0, 1, 1, 2, 3] := by
  refine ⟨rfl, rfl, rfl, ?_⟩
  decide

/-- C8: for every negative integer `n`, `fibonacci n` returns the empty
list, the same result as `n = 0`; the function is total on `Int`. -/
theorem fibonacci_neg_eq_nil (n : Int) (hn : n < 0) :
    fibonacci n = [] ∧ fibonacci n = fibonacci 0 := by
  have hle : n ≤ 0 := le_of_lt hn
  unfold fibonacci
  rw [if_pos hle, if_pos (le_refl (0 : Int))]
  exact ⟨rfl, rfl⟩

/-- Witness for C8 at `n = -1`. -/
theorem fibonacci_neg_eq_nil_witness :
    (-1 : Int) < 0 ∧ (fibonacci (-1) = [] ∧ fibonacci (-1) = fibonacci 0) :=
  ⟨by decide, fibonacci_neg_eq_nil (-1) (by decide)⟩

/-- C9: for every integer `n ≥ 0`, `fibonacci n` is a prefix of
`fibonacci (n + 1)`: requesting one more term only appends. -/
theorem fibonacci_prefix_succ (n : Int) (hn : 0 ≤ n) :
    fibonacci n <+: fibonacci (n + 1) := by
  by_cases h0 : n = 0
  · subst h0; decide
  · by_cases h1 : n = 1
    · subst h1; decide
    · by_cases h2 : n = 2
      · subst h2; decide
      · have h3 : 3 ≤ n := by omega
        have e1 : fibonacci n =
            (List.range' 2 (n.toNat - 2)).foldl fibStep [0, 1] := by
          unfold fibonacci
          rw [if_neg (by omega : ¬ n ≤ 0), if_neg h1, if_neg h2]
        have e2 : fibonacci (n + 1) =
            (List.range' 2 ((n + 1).toNat - 2)).foldl fibStep [0, 1] := by
          unfold fibonacci
          rw [if_neg (by omega : ¬ n + 1 ≤ 0),
            if_neg (by omega : ¬ n + 1 = 1), if_neg (by omega : ¬ n + 1 = 2)]
        have ht : (n + 1).toNat - 2 = (n.toNat - 2) + 1 := by omega
        rw [e1, e2, ht, List.range'_1_concat, List.foldl_append]
        exact ⟨_, rfl⟩

/-- Witness for C9 at `n = 3`. -/
theorem fibonacci_prefix_succ_witness :
    (0 : Int) ≤ 3 ∧ fibonacci 3 <+: fibonacci (3 + 1) :=
  ⟨by decide, fibonacci_prefix_succ 3 (by decide)⟩

/-! ## The console `main` of `happy/fibonacci.py` -/

/-- ASCII whitespace as recognised by Python: space, tab, newline, carriage
return, vertical tab and form feed. -/
def isPySpace (c : Char) : Bool :=
  c == ' ' || c == '\t' || c == '\n' || c == '\r' || c == '\x0b' || c == '\x0c'

/-- Value of a list of decimal digit characters. -/
def digitsToNat (l : List Char) : Nat :=
  l.foldl (fun a c => a * 10 + (c.toNat - 48)) 0

/-- Strip leading and trailing whitespace from a character list. -/
def stripChars (l : List Char) : List Char :=
  ((l.dropWhile isPySpace).reverse.dropWhile isPySpace).reverse

/-- The `int(...)` conversion applied to the console input in `main`:
surrounding whitespace is stripped, an optional single sign is allowed,
and the remainder must be a nonempty run of decimal digits; anything else
raises `ValueError`, modelled as `none`. (Digit-group underscores, which
CPython also accepts, are not modelled.) -/
def parsePyInt (s : String) : Option Int :=
  match stripChars s.toList with
  | [] => none
  | '-' :: ds =>
    if ds ≠ [] ∧ ds.all Char.isDigit then some (-(digitsToNat ds : Int))
    else none
  | '+' :: ds =>
    if ds ≠ [] ∧ ds.all Char.isDigit then some (digitsToNat ds) else none
  | ds =>
    if ds.all Char.isDigit then some (digitsToNat ds) else none

/-- One line of console output, or the printed sequence `print(result)`. -/
inductive ConsoleOut
  | line (s : String)
  | seqOut (l : List Int)
deriving DecidableEq

/-- The two banner lines printed unconditionally at the top of `main`. -/
def fibHeader : List ConsoleOut :=
  [ConsoleOut.line "Fibonacci Series Generator",
    ConsoleOut.line (String.mk (List.replicate 30 '='))]

/-- `main()` from `happy/fibonacci.py` as a function from the console input
line to the list of outputs: parse with `int`, reject negatives, otherwise
print the header line and the sequence; a `ValueError` is caught and
reported. -/
def mainRun (input : String) : List ConsoleOut :=
  fibHeader ++
    match parsePyInt input with
    | none => [ConsoleOut.line "Please enter a valid integer."]
    | some n =>
      if n < 0 then [ConsoleOut.line "Please enter a non-negative number."]
      else
        [ConsoleOut.line ("\nFirst " ++ toString n ++ " Fibonacci numbers:"),
          ConsoleOut.seqOut (fibonacci n)]

/-- C6: on input that does not parse as an integer, or parses as a negative
integer, `main` prints a rejection message and never prints a sequence. -/
theorem main_rejects_invalid_input (input : String)
    (h : parsePyInt input = none ∨
      ∃ n : Int, parsePyInt input = some n ∧ n < 0) :
    (ConsoleOut.line "Please enter a valid integer." ∈ mainRun input ∨
      ConsoleOut.line "Please enter a non-negative number." ∈ mainRun input) ∧
      ∀ l : List Int, ConsoleOut.seqOut l ∉ mainRun input := by
  rcases h with h | ⟨n, hn, hneg⟩
  · constructor
    · left
      simp [mainRun, fibHeader, h]
    · intro l
      simp [mainRun, fibHeader, h]
  · constructor
    · right
      simp [mainRun, fibHeader, hn, if_pos hneg]
    · intro l
      simp [mainRun, fibHeader, hn, if_pos hneg]

/-- Witness for C6 at the concrete inputs `"abc"` and `"-3"`. -/
theorem main_rejects_invalid_input_witness :
    (parsePyInt "abc" = none ∨
        ∃ n : Int, parsePyInt "abc" = some n ∧ n < 0) ∧
      ((ConsoleOut.line "Please enter a valid integer." ∈ mainRun "abc" ∨
        ConsoleOut.line "Please enter a non-negative number." ∈ mainRun "abc") ∧
        ∀ l : List Int, ConsoleOut.seqOut l ∉ mainRun "abc") :=
  ⟨Or.inl (by decide), main_rejects_invalid_input "abc" (Or.inl (by decide))⟩

/-! ## `add_json_imports.py` -/

/-- Index of the first ';' in a character list, if any. -/
def findSemi : List Char → Option Nat
  | [] => none
  | c :: cs => if c = ';' then some 0 else (findSemi cs).map (· + 1)

/-- Length of the match of the regular expression `(use [^;]+;)\n` at the
head of `s`, if it matches there.  The greedy `[^;]+` cannot cross a ';',
so the match at a given position is unique: the literal `"use "`, then at
least one non-';' character up to the first ';', then that ';', then a
newline. -/
def useMatchLen (s : List Char) : Option Nat :=
  match s with
  | 'u' :: 's' :: 'e' :: ' ' :: rest =>
    match findSemi rest with
    | some q =>
      if q ≠ 0 ∧ rest[q + 1]? = some '\n' then some (q + 6) else none
    | none => none
  | _ => none

/-- The scan of `re.finditer` over the pattern `(use [^;]+;)\n`, one
character at a time: `off` is the absolute position of the head of `s` and
`skip` counts characters of the current match still to be passed over, so
that the scan resumes at the match end and matches never overlap. -/
def useScanGo : List Char → Nat → Nat → List Nat
  | [], _, _ => []
  | _ :: cs, off, skip + 1 => useScanGo cs (off + 1) skip
  | c :: cs, off, 0 =>
    match useMatchLen (c :: cs) with
    | some k => (off + k) :: useScanGo cs (off + 1) (k - 1)
    | none => useScanGo cs (off + 1) 0

/-- Absolute end positions of the non-overlapping matches of
`(use [^;]+;)\n` in `s`, scanning left to right from absolute position
`off`, as `list(re.finditer(use_pattern, content))` produces them. -/
def useMatchEnds (s : List Char) (off : Nat) : List Nat :=
  useScanGo s off 0

/-- The already-imported check string `'use serde_json::json;'`. -/
def importTok : List Char := "use serde_json::json;".toList

/-- The check string `'serde_json::json!'`. -/
def macroTok : List Char := "serde_json::json!".toList

/-- The inserted text `'use serde_json::json;\n'`. -/
def importLine : List Char := "use serde_json::json;\n".toList

/-- The per-file transformation of `add_json_imports.py`: skip when
the import is already present or the `json!` macro is absent; otherwise insert
`importLine` at the end of the last `use ...;` match; skip when there is
no match.  `some` is a rewrite of the file, `none` leaves it untouched. -/
def addJsonTransform (content : List Char) : Option (List Char) :=
  if importTok <:+: content ∨ ¬ macroTok <:+: content then none
  else
    match (useMatchEnds content 0).getLast? with
    | some e => some (content.take e ++ importLine ++ content.drop e)
    | none => none

/-! ## `update_tool_registry_mocks.py` -/

/-- The Python constant `TOOL_SCHEMA_METHOD`: the injected method body.
It begins with a newline and carries no trailing newline. -/
def TOOL_SCHEMA_METHOD : List Char :=
  (String.intercalate "\n" [
    "",
    "        fn get_tool_schemas(&self, _agent_id: &str) -> Vec<serde_json::Value> \x7b",
    "            vec![",
    "                json!(\x7b",
    "                    \"type\": \"function\",",
    "                    \"function\": \x7b",
    "                        \"name\": \"echo\",",
    "                        \"description\": \"Echo a message\",",
    "                        \"parameters\": \x7b",
    "                            \"type\": \"object\",",
    "                            \"properties\": \x7b",
    "                                \"message\": \x7b\"type\": \"string\"\x7d",
    "                            \x7d,",
    "                            \"required\": [\"message\"]",
    "                        \x7d",
    "                    \x7d",
    "                \x7d)",
    "            ]",
    "        \x7d"]).toList

/-- The literal head of the pattern
`(fn get_active_tools\(&self[^}]+\})\s*\n(\s*)\}`. -/
def updLit : List Char := "fn get_active_tools(&self".toList

/-- Index of the first closing brace in a character list, if any. -/
def findBrace : List Char → Option Nat
  | [] => none
  | c :: cs => if c = '\x7d' then some 0 else (findBrace cs).map (· + 1)

/-- Match of `(fn get_active_tools\(&self[^}]+\})\s*\n(\s*)\}` at the head
of `s`.  `[^}]+` is greedy and cannot cross a brace, so group 1 runs to
the first `}` after the literal; `\s*\n(\s*)\}` forces the whole
whitespace run after that brace to end at a `}`, with the `\n` taken as
late as possible, so group 2 is the run's tail after its last newline.
Returns the number of characters consumed and the replacement produced by
`replacer`: group 1, a newline, `TOOL_SCHEMA_METHOD`, a newline, group 2
and the closing brace. -/
def updMatch (s : List Char) : Option (Nat × List Char) :=
  if updLit <+: s then
    let rest := s.drop updLit.length
    match findBrace rest with
    | some q =>
      if q = 0 then none
      else
        let g1 := s.take (updLit.length + q + 1)
        let after := s.drop (updLit.length + q + 1)
        let w := after.takeWhile isPySpace
        if '\n' ∈ w ∧ after[w.length]? = some '\x7d' then
          let g2 := (w.reverse.takeWhile (fun c => c != '\n')).reverse
          some (updLit.length + q + 1 + w.length + 1,
            g1 ++ '\n' :: (TOOL_SCHEMA_METHOD ++ '\n' :: (g2 ++ ['\x7d'])))
        else none
    | none => none
  else none

/-- The scan of `re.sub(pattern, replacer, content)`, one character at a
time: a positive `skip` counts characters of the already-replaced match
still to be consumed; at `skip = 0` a match emits its replacement and an
unmatched character is copied through. -/
def reSubGo : List Char → Nat → List Char
  | [], _ => []
  | _ :: cs, skip + 1 => reSubGo cs skip
  | c :: cs, 0 =>
    match updMatch (c :: cs) with
    | some (k, r) => r ++ reSubGo cs (k - 1)
    | none => c :: reSubGo cs 0

/-- `re.sub(pattern, replacer, content)`: replace every non-overlapping
match, scanning left to right. -/
def reSubUpdate (s : List Char) : List Char :=
  reSubGo s 0

/-- The per-file transformation of `update_tool_registry_mocks.py`: apply
the substitution and write back only when the result differs from the
original content. -/
def updateMocksTransform (content : List Char) : Option (List Char) :=
  let nc := reSubUpdate content
  if nc ≠ content then some nc else none

/-! ## The per-file loops of the two codemods -/

/-- The file system: a partial map from paths to contents.  A path that is
absent raises on `open`, which the scripts catch per file. -/
def FS : Type := String → Option (List Char)

/-- Writing a file. -/
def fsWrite (fs : FS) (p : String) (c : List Char) : FS :=
  fun q => if q = p then some c else fs q

/-- The per-file console report: a success line, a skip line, or the error
line printed by an `except` handler. -/
inductive Report
  | written (p : String)
  | skipped (p : String)
  | failed (p : String)
deriving DecidableEq

/-- One iteration of the `for filepath in files` loop, shared shape of
both codemods with `t` the per-file transformation: read the file (a
missing file is the caught per-file failure), transform, and write back
only a changed result. -/
def fileStep (t : List Char → Option (List Char)) (fs : FS) (p : String) :
    FS × Report :=
  match fs p with
  | none => (fs, Report.failed p)
  | some c =>
    match t c with
    | some nc => (fsWrite fs p nc, Report.written p)
    | none => (fs, Report.skipped p)

/-- The whole loop: process every path in order, accumulating the final
file system and one report per path. -/
def runFiles (t : List Char → Option (List Char)) (fs : FS) :
    List String → FS × List Report
  | [] => (fs, [])
  | p :: ps =>
    let s1 := fileStep t fs p
    let s2 := runFiles t s1.1 ps
    (s2.1, s1.2 :: s2.2)

/-- The hard-coded path list `files`, identical in both scripts. -/
def targetFiles : List String :=
  ["hypr-claw-app/src/commands/run.rs",
    "hypr-claw-app/tests/session_persistence_test.rs",
    "hypr-claw-runtime/src/runtime_controller.rs",
    "hypr-claw-runtime/tests/stress_test.rs",
    "hypr-claw-runtime/tests/integration_runtime.rs",
    "hypr-claw-runtime/tests/failure_simulation.rs",
    "hypr-claw-runtime/tests/test_production_hardening.rs",
    "hypr-claw-runtime/tests/lock_permit_safety.rs",
    "hypr-claw-runtime/tests/failure_scenarios.rs",
    "hypr-claw-runtime/tests/startup_integrity.rs"]

/-- A file state with the injected `get_tool_schemas` method present and a
further `get_active_tools` method the pattern still matches. -/
def updTail : List Char :=
  "fn get_active_tools(&self a\x7d\n\x7d".toList

/-- The counterexample content for the update codemod: the injected method
followed by a matchable `get_active_tools` site. -/
def cexUpd : List Char := TOOL_SCHEMA_METHOD ++ updTail

/-! ## Proofs about the codemod loops -/

/-- Processing a concatenated path list processes the first part, then the
second part on the file system the first part produced. -/
theorem runFiles_append (t : List Char → Option (List Char)) (fs : FS)
    (xs ys : List String) :
    runFiles t fs (xs ++ ys) =
      ((runFiles t (runFiles t fs xs).1 ys).1,
        (runFiles t fs xs).2 ++ (runFiles t (runFiles t fs xs).1 ys).2) := by
  induction xs generalizing fs with
  | nil => simp [runFiles]
  | cons p ps ih => simp [runFiles, ih]

/-- C5: in both codemods, a per-file failure (the file missing when it is
opened) produces a failure report for that file and processing continues
with every remaining path, on the file system the earlier files
produced — no earlier file's outcome is affected. -/
theorem codemod_missing_file_continues
    (t : List Char → Option (List Char))
    (ht : t = addJsonTransform ∨ t = updateMocksTransform)
    (fs : FS) (pre post : List String) (p : String)
    (hmiss : (runFiles t fs pre).1 p = none) :
    runFiles t fs (pre ++ p :: post) =
      ((runFiles t (runFiles t fs pre).1 post).1,
        (runFiles t fs pre).2 ++
          Report.failed p :: (runFiles t (runFiles t fs pre).1 post).2) := by
  rw [runFiles_append]
  have hstep : fileStep t (runFiles t fs pre).1 p =
      ((runFiles t fs pre).1, Report.failed p) := by
    unfold fileStep
    rw [hmiss]
  simp [runFiles, hstep]

/-- Witness for C5: a file system with no files, `pre = []`,
`post = ["b"]`, failing path `"a"`, for `add_json_imports`. -/
theorem codemod_missing_file_continues_witness :
    (runFiles addJsonTransform (fun _ => none) []).1 "a" = none ∧
      runFiles addJsonTransform (fun _ => none) ([] ++ "a" :: ["b"]) =
        ((runFiles addJsonTransform
            (runFiles addJsonTransform (fun _ => none) []).1 ["b"]).1,
          (runFiles addJsonTransform (fun _ => none) []).2 ++
            Report.failed "a" ::
              (runFiles addJsonTransform
                (runFiles addJsonTransform (fun _ => none) []).1 ["b"]).2) :=
  ⟨rfl, codemod_missing_file_continues addJsonTransform (Or.inl rfl)
    (fun _ => none) [] ["b"] "a" rfl⟩

/-- C10: `add_json_imports` rewrites a file exactly when the content has
the `json!` macro, lacks the import, and has a `use`-statement match;
`update_tool_registry_mocks` rewrites exactly when the substitution
changes the content; and a file whose transformation does not fire is left
untouched on disk. -/
theorem codemod_write_conditions :
    (∀ c : List Char, (addJsonTransform c).isSome = true ↔
        (macroTok <:+: c ∧ ¬ importTok <:+: c ∧ useMatchEnds c 0 ≠ [])) ∧
      (∀ c : List Char,
        (updateMocksTransform c).isSome = true ↔ reSubUpdate c ≠ c) ∧
      ∀ (t : List Char → Option (List Char)) (fs : FS) (p : String),
        (∀ c, fs p = some c → t c = none) → (fileStep t fs p).1 = fs := by
  refine ⟨?_, ?_, ?_⟩
  · intro c
    unfold addJsonTransform
    by_cases h : importTok <:+: c ∨ ¬ macroTok <:+: c
    · rw [if_pos h]
      simp only [Option.isSome_none, Bool.false_eq_true, false_iff]
      intro ⟨hmac, himp, _⟩
      rcases h with h | h
      · exact himp h
      · exact h hmac
    · rw [if_neg h]
      push_neg at h
      cases hg : (useMatchEnds c 0).getLast? with
      | none =>
        rw [List.getLast?_eq_none_iff] at hg
        simp [hg, h.2, h.1]
      | some e =>
        have hne : useMatchEnds c 0 ≠ [] := by
          intro hnil
          rw [hnil] at hg
          simp at hg
        simp [h.2, h.1, hne]
  · intro c
    unfold updateMocksTransform
    by_cases h : reSubUpdate c ≠ c
    · simp [if_pos h, h]
    · simp [if_neg h]
      push_neg at h
      exact h
  · intro t fs p hskip
    unfold fileStep
    cases hp : fs p with
    | none => rfl
    | some c => simp [hskip c hp]

set_option maxRecDepth 40000 in
/-- Counterexample to C3: a file state containing the injected
`get_tool_schemas` method on which the update codemod's substitution still
changes the content, so a further run does not leave the file unchanged. -/
theorem update_not_idempotent_on_method_present :
    TOOL_SCHEMA_METHOD <:+: cexUpd ∧ reSubUpdate cexUpd ≠ cexUpd := by
  refine ⟨⟨[], updTail, rfl⟩, ?_⟩
  decide

/-- C3 as amended: `add_json_imports` is idempotent once the import line
is present — the write is skipped, leaving the content unchanged — while
`update_tool_registry_mocks` leaves a file unchanged exactly in the states
where the regex substitution produces no change (presence of the injected
method does not by itself guarantee this). -/
theorem codemod_idempotence_amended :
    (∀ c : List Char, importTok <:+: c → addJsonTransform c = none) ∧
      ∀ c : List Char, reSubUpdate c = c → updateMocksTransform c = none := by
  constructor
  · intro c h
    unfold addJsonTransform
    rw [if_pos (Or.inl h)]
  · intro c h
    unfold updateMocksTransform
    simp only [h]
    simp

set_option maxRecDepth 40000 in
/-- Counterexample to C4: the update codemod performs no presence check on
its injected text — it writes a file in which the `get_tool_schemas`
method is already present. -/
theorem update_writes_despite_method_present :
    TOOL_SCHEMA_METHOD <:+: cexUpd ∧ updateMocksTransform cexUpd ≠ none := by
  refine ⟨⟨[], updTail, rfl⟩, ?_⟩
  unfold updateMocksTransform
  rw [if_pos (by decide : reSubUpdate cexUpd ≠ cexUpd)]
  simp

/-- `findSemi` finds the first ';': its index is in range, holds ';', and
no earlier index does. -/
theorem findSemi_spec : ∀ {l : List Char} {q : Nat}, findSemi l = some q →
    q < l.length ∧ l[q]? = some ';' ∧ ∀ j, j < q → l[j]? ≠ some ';' := by
  intro l
  induction l with
  | nil => intro q h; simp [findSemi] at h
  | cons c cs ih =>
    intro q h
    unfold findSemi at h
    by_cases hc : c = ';'
    · rw [if_pos hc] at h
      injection h with h
      subst h
      refine ⟨by simp, by simp [hc], ?_⟩
      intro j hj
      omega
    · rw [if_neg hc] at h
      rw [Option.map_eq_some'] at h
      obtain ⟨q', hq', hqe⟩ := h
      subst hqe
      obtain ⟨h1, h2, h3⟩ := ih hq'
      refine ⟨by simp; omega, by simpa using h2, ?_⟩
      intro j hj
      cases j with
      | zero =>
        simp only [List.getElem?_cons_zero]
        intro hcontra
        exact hc (by injection hcontra)
      | succ j' =>
        simp only [List.getElem?_cons_succ]
        exact h3 j' (by omega)

/-- Shape of a `(use [^;]+;)\n` match at the head of `s`: it is at least 7
characters long, fits in `s`, and the matched text is `"use "`, a nonempty
semicolon-free middle, a ';' and a newline. -/
theorem useMatchLen_shape : ∀ {s : List Char} {k : Nat},
    useMatchLen s = some k →
      7 ≤ k ∧ k ≤ s.length ∧
        ∃ mid : List Char, mid ≠ [] ∧ ';' ∉ mid ∧
          s.take k = 'u' :: 's' :: 'e' :: ' ' :: (mid ++ [';', '\n']) := by
  intro s k h
  unfold useMatchLen at h
  split at h
  case h_2 => exact absurd h (by simp)
  case h_1 rest =>
    cases hq : findSemi rest with
    | none =>
      rw [hq] at h
      simp at h
    | some q =>
      rw [hq] at h
      have h' : (if q ≠ 0 ∧ rest[q + 1]? = some '\n' then some (q + 6)
          else none) = some k := h
      by_cases hcond : q ≠ 0 ∧ rest[q + 1]? = some '\n'
      case neg =>
        rw [if_neg hcond] at h'
        exact absurd h' (by simp)
      case pos =>
        rw [if_pos hcond] at h'
        obtain ⟨hq0, hqnl⟩ := hcond
        injection h' with h'
        subst h'
        obtain ⟨hqlt, hsemi, hfirst⟩ := findSemi_spec hq
        obtain ⟨hq1lt, _⟩ := List.getElem?_eq_some_iff.mp hqnl
        refine ⟨by omega, by simp; omega, rest.take q, ?_, ?_, ?_⟩
        · have hlen : (rest.take q).length = q :=
            List.length_take_of_le (by omega)
          intro hnil
          rw [hnil] at hlen
          simp at hlen
          omega
        · intro hmem
          rw [List.mem_iff_getElem?] at hmem
          obtain ⟨j, hj⟩ := hmem
          have hjlt : j < q := by
            have := (List.getElem?_eq_some_iff.mp hj).1
            have hlen : (rest.take q).length = q :=
              List.length_take_of_le (by omega)
            omega
          rw [List.getElem?_take_of_lt hjlt] at hj
          exact hfirst j hjlt hj
        · have hsplit : q + 6 = q + 2 + 1 + 1 + 1 + 1 := by omega
          rw [hsplit]
          simp only [List.take_succ_cons]
          have ht2 : rest.take (q + 2) = rest.take (q + 1) ++ ['\n'] := by
            rw [show q + 2 = (q + 1) + 1 by omega, List.take_succ, hqnl]
            rfl
          have ht1 : rest.take (q + 1) = rest.take q ++ [';'] := by
            rw [List.take_succ, hsemi]
            rfl
          rw [ht2, ht1]
          simp

/-- Every end position the finditer scan reports is the end of a match in
the content: some suffix `s.drop d` matches with length `k` and the end is
`off + d + k`. -/
theorem useScanGo_sound : ∀ {s : List Char} {off skip e : Nat},
    e ∈ useScanGo s off skip →
      ∃ d k, useMatchLen (s.drop d) = some k ∧ e = off + d + k := by
  intro s
  induction s with
  | nil => intro off skip e h; simp [useScanGo] at h
  | cons c cs ih =>
    intro off skip e h
    match skip with
    | n + 1 =>
      rw [useScanGo] at h
      obtain ⟨d', k', h1, h2⟩ := ih h
      exact ⟨d' + 1, k', by simpa using h1, by omega⟩
    | 0 =>
      rw [useScanGo] at h
      cases hm : useMatchLen (c :: cs) with
      | some k =>
        rw [hm] at h
        rcases List.mem_cons.mp h with he | he
        · exact ⟨0, k, by simpa using hm, by omega⟩
        · obtain ⟨d', k', h1, h2⟩ := ih he
          exact ⟨d' + 1, k', by simpa using h1, by omega⟩
      | none =>
        rw [hm] at h
        obtain ⟨d', k', h1, h2⟩ := ih h
        exact ⟨d' + 1, k', by simpa using h1, by omega⟩

/-- Every end position the scan reports from state `(off, skip)` lies
strictly beyond `off + skip`. -/
theorem useScanGo_lb : ∀ {s : List Char} {off skip e : Nat},
    e ∈ useScanGo s off skip → off + skip < e := by
  intro s
  induction s with
  | nil => intro off skip e h; simp [useScanGo] at h
  | cons c cs ih =>
    intro off skip e h
    match skip with
    | n + 1 =>
      rw [useScanGo] at h
      have := ih h
      omega
    | 0 =>
      rw [useScanGo] at h
      cases hm : useMatchLen (c :: cs) with
      | some k =>
        rw [hm] at h
        have hk7 := (useMatchLen_shape hm).1
        rcases List.mem_cons.mp h with he | he
        · omega
        · have := ih he
          omega
      | none =>
        rw [hm] at h
        have := ih h
        omega

/-- The last element of the scan's output is the largest: match end
positions are produced in increasing order. -/
theorem useScanGo_getLast_max : ∀ {s : List Char} {off skip m : Nat},
    (useScanGo s off skip).getLast? = some m →
      ∀ e ∈ useScanGo s off skip, e ≤ m := by
  intro s
  induction s with
  | nil => intro off skip m hm; simp [useScanGo] at hm
  | cons c cs ih =>
    intro off skip m hm e he
    match skip with
    | n + 1 =>
      rw [useScanGo] at hm he
      exact ih hm e he
    | 0 =>
      rw [useScanGo] at hm he
      cases hmatch : useMatchLen (c :: cs) with
      | some k =>
        rw [hmatch] at hm he
        have hm' : ((off + k) :: useScanGo cs (off + 1) (k - 1)).getLast? =
            some m := hm
        have he' : e ∈ (off + k) :: useScanGo cs (off + 1) (k - 1) := he
        cases ht : useScanGo cs (off + 1) (k - 1) with
        | nil =>
          rw [ht] at hm' he'
          have hme : m = off + k := by
            rw [List.getLast?_singleton] at hm'
            injection hm' with hm'
            omega
          rcases List.mem_cons.mp he' with he2 | he2
          · omega
          · simp at he2
        | cons b t' =>
          rw [ht] at hm' he'
          rw [List.getLast?_cons_cons] at hm'
          rw [← ht] at hm'
          rcases List.mem_cons.mp he' with he2 | he2
          · have hmemm : m ∈ useScanGo cs (off + 1) (k - 1) :=
              List.mem_of_getLast?_eq_some hm'
            have hlb := useScanGo_lb hmemm
            have hk7 := (useMatchLen_shape hmatch).1
            omega
          · rw [← ht] at he2
            exact ih hm' e he2
      | none =>
        rw [hmatch] at hm he
        have hm' : (useScanGo cs (off + 1) 0).getLast? = some m := hm
        have he' : e ∈ useScanGo cs (off + 1) 0 := he
        exact ih hm' e he'

/-- C7: when `add_json_imports` rewrites a file, the new content is the
old content with exactly the line `use serde_json::json;` inserted at the
end of the last matched `use`-statement: the text splits as
`pre ++ match ++ post` with the matched text of the form
`use <middle>;\n`, the new content is the same with `importLine` inserted
after the match, and no reported match ends later. -/
theorem addJson_inserts_after_last_use (c nc : List Char)
    (h : addJsonTransform c = some nc) :
    ∃ pre mid post : List Char,
      c = pre ++ ('u' :: 's' :: 'e' :: ' ' :: (mid ++ [';', '\n'])) ++ post ∧
        nc = pre ++ ('u' :: 's' :: 'e' :: ' ' :: (mid ++ [';', '\n'])) ++
          (importLine ++ post) ∧
        mid ≠ [] ∧ ';' ∉ mid ∧
        ∀ e ∈ useMatchEnds c 0, e ≤ pre.length + (mid.length + 6) := by
  unfold addJsonTransform at h
  split at h
  case isTrue => exact absurd h (by simp)
  case isFalse hcond =>
    split at h
    case h_2 => exact absurd h (by simp)
    case h_1 e heq =>
      injection h with h
      have hmem : e ∈ useMatchEnds c 0 := List.mem_of_getLast?_eq_some heq
      obtain ⟨d, k, hmk, hek⟩ := useScanGo_sound hmem
      obtain ⟨hk7, hkle, mid, hmidne, hmidsemi, htake⟩ := useMatchLen_shape hmk
      have hdk : e = d + k := by omega
      have hdle : d + k ≤ c.length := by
        have := List.length_drop d c
        omega
      have hpre : (c.take d).length = d := List.length_take_of_le (by omega)
      have hseg : (c.drop d).take k =
          'u' :: 's' :: 'e' :: ' ' :: (mid ++ [';', '\n']) := htake
      have hmidlen : k = mid.length + 6 := by
        have h1 : ((c.drop d).take k).length = k := by
          rw [List.length_take_of_le]
          rw [List.length_drop]
          omega
        rw [hseg] at h1
        simp at h1
        omega
      refine ⟨c.take d, mid, c.drop e, ?_, ?_, hmidne, hmidsemi, ?_⟩
      · conv_lhs => rw [← List.take_append_drop d c]
        rw [← hseg, List.append_assoc]
        congr 1
        conv_lhs => rw [← List.take_append_drop k (c.drop d)]
        rw [List.drop_drop, ← hdk]
      · rw [← h]
        have hcte : c.take e = c.take d ++ (c.drop d).take k := by
          rw [hdk, List.take_add]
        rw [hcte, hseg, List.append_assoc]
      · intro x hx
        have hle := useScanGo_getLast_max heq x hx
        rw [hpre]
        omega

/-- Witness for C7 at a concrete file content with one `use` statement. -/
theorem addJson_inserts_after_last_use_witness :
    addJsonTransform ("serde_json::json!\nuse ab;\ntail".toList) =
        some ("serde_json::json!\nuse ab;\nuse serde_json::json;\ntail".toList) ∧
      ∃ pre mid post : List Char,
        "serde_json::json!\nuse ab;\ntail".toList =
            pre ++ ('u' :: 's' :: 'e' :: ' ' :: (mid ++ [';', '\n'])) ++ post ∧
          "serde_json::json!\nuse ab;\nuse serde_json::json;\ntail".toList =
            pre ++ ('u' :: 's' :: 'e' :: ' ' :: (mid ++ [';', '\n'])) ++
              (importLine ++ post) ∧
          mid ≠ [] ∧ ';' ∉ mid ∧
          ∀ e ∈ useMatchEnds "serde_json::json!\nuse ab;\ntail".toList 0,
            e ≤ pre.length + (mid.length + 6) :=
  ⟨by decide, addJson_inserts_after_last_use _ _ (by decide)⟩

/-- C4 as amended: `add_json_imports` checks for the import line and skips
the write when it is present; `update_tool_registry_mocks` instead skips
the write exactly when the substitution result equals the original
content. -/
theorem codemod_skip_conditions :
    (∀ c : List Char, importTok <:+: c → addJsonTransform c = none) ∧
      ∀ c : List Char, updateMocksTransform c = none ↔ reSubUpdate c = c := by
  constructor
  · intro c h
    unfold addJsonTransform
    rw [if_pos (Or.inl h)]
  · intro c
    unfold updateMocksTransform
    by_cases h : reSubUpdate c = c
    · simp [h]
    · simp [h]

end HyprClaw
